import Mathlib

/-!
Verification of the fallback embedding/reranking engine of
`embedding_functions.py` (functions `_create_fallback_embedding` and
`_create_fallback_reranking`).

Python strings are modelled as lists of characters, Python floats as
rationals (with the reals used only for the square root taken during
normalization), and Python's builtin `hash` as an arbitrary function from
strings to integers supplied as a parameter.  Python's `%` on `int`
returns a non-negative remainder for a positive modulus, which is the
behaviour of `Int.emod`, the `%` of `ℤ`.  Python's `list.sort` is a
stable sort, modelled by `List.mergeSort`.
-/

namespace EmbeddingFunctions

/-- Python strings, modelled as lists of characters. -/
abbrev Str := List Char

/-- Python `s.lower()`. -/
def lower (s : Str) : Str := s.map Char.toLower

/-- Python `s.split()` with no separator argument: the list of maximal runs
of non-whitespace characters (empty runs are dropped). -/
def splitWords (s : Str) : List Str :=
  (s.splitOnP Char.isWhitespace).filter (fun w => !w.isEmpty)

/-- Python `set(s.lower().split())`: the set of lowercase words of `s`. -/
def wordSet (s : Str) : Finset Str := (splitWords (lower s)).toFinset

/-- The score the fallback reranker gives one document, from the loop body of
`_create_fallback_reranking`: Jaccard similarity of the lowercase word sets
(`0.0` when the union is empty), plus a `0.1` bonus when the lowercased query
occurs as a contiguous substring of the lowercased document. -/
def docScore (query doc : Str) : ℚ :=
  let query_words := wordSet query
  let doc_words := wordSet doc
  let intersection : ℕ := (query_words ∩ doc_words).card
  let union : ℕ := (query_words ∪ doc_words).card
  let score : ℚ := if 0 < union then (intersection : ℚ) / (union : ℚ) else 0
  if lower query <:+: lower doc then score + 1/10 else score

/-- The `scores` list built by the `for i, doc in enumerate(documents)` loop:
pairs `(original index, score)` in input order. -/
def initialScores (query : Str) (documents : List Str) : List (ℕ × ℚ) :=
  documents.enum.map (fun p => (p.1, docScore query p.2))

/-- The comparison used by `scores.sort(key=lambda x: x[1], reverse=True)`:
`a` may come before `b` when `b`'s score is at most `a`'s score. -/
def scoreLE (a b : ℕ × ℚ) : Bool := decide (b.2 ≤ a.2)

/-- Python's stable descending sort of the score list. -/
def sortScores (scores : List (ℕ × ℚ)) : List (ℕ × ℚ) :=
  scores.mergeSort scoreLE

/-- Python's slice `l[:k]` for an arbitrary (possibly negative) integer `k`. -/
def pySliceTo (l : List (ℕ × ℚ)) (k : ℤ) : List (ℕ × ℚ) :=
  if 0 ≤ k then l.take k.toNat else l.take ((l.length : ℤ) + k).toNat

/-- The `if top_k is not None: scores = scores[:top_k]` step. -/
def applyTopK (l : List (ℕ × ℚ)) : Option ℤ → List (ℕ × ℚ)
  | none => l
  | some k => pySliceTo l k

/-- `_create_fallback_reranking(query, documents, top_k)`. -/
def create_fallback_reranking (query : Str) (documents : List Str)
    (top_k : Option ℤ) : List (ℕ × ℚ) :=
  applyTopK (sortScores (initialScores query documents)) top_k

/-- One raw component of the fallback embedding:
`value = (seed % 2000 - 1000) / 1000.0` with `seed = hash_value + i * 37`. -/
def rawValue (hash_value : ℤ) (i : ℕ) : ℚ :=
  (((hash_value + (i : ℤ) * 37) % 2000 - 1000 : ℤ) : ℚ) / 1000

/-- The raw (pre-normalization) 384-component embedding list. -/
def rawEmbedding (hash_value : ℤ) : List ℚ :=
  (List.range 384).map (rawValue hash_value)

/-- `sum(x * x for x in embedding)` over rationals. -/
def sumSq (l : List ℚ) : ℚ := (l.map (fun x => x * x)).sum

/-- Sum of squares of a real vector; its square root is the Euclidean norm. -/
noncomputable def sumSqR (l : List ℝ) : ℝ := (l.map (fun x => x * x)).sum

/-- The normalization step of `_create_fallback_embedding`:
`norm = sum(x*x for x in embedding) ** 0.5; if norm > 0: divide every
component by norm, else leave the components unchanged`. -/
noncomputable def normalize (l : List ℚ) : List ℝ :=
  if 0 < Real.sqrt ((sumSq l : ℚ) : ℝ) then
    l.map (fun x => (Rat.cast x : ℝ) / Real.sqrt ((sumSq l : ℚ) : ℝ))
  else
    l.map (fun x => (Rat.cast x : ℝ))

/-- `_create_fallback_embedding(text)`, parameterized by the (builtin,
implementation-defined) string hash function. -/
noncomputable def create_fallback_embedding (hashFn : Str → ℤ) (text : Str) :
    List ℝ :=
  normalize (rawEmbedding (hashFn text))

/-! ### Basic lemmas about the fallback embedding -/

lemma rawEmbedding_length (h : ℤ) : (rawEmbedding h).length = 384 := by
  simp [rawEmbedding]

lemma rawValue_lower (h : ℤ) (i : ℕ) : -1 ≤ rawValue h i := by
  have h0 : (0 : ℤ) ≤ (h + (i : ℤ) * 37) % 2000 :=
    Int.emod_nonneg _ (by norm_num)
  have h0q : (0 : ℚ) ≤ (((h + (i : ℤ) * 37) % 2000 : ℤ) : ℚ) := by exact_mod_cast h0
  unfold rawValue
  rw [le_div_iff₀ (by norm_num : (0 : ℚ) < 1000)]
  push_cast
  linarith

lemma rawValue_upper (h : ℤ) (i : ℕ) : rawValue h i < 1 := by
  have h1 : (h + (i : ℤ) * 37) % 2000 < 2000 :=
    Int.emod_lt_of_pos _ (by norm_num)
  have h1q : (((h + (i : ℤ) * 37) % 2000 : ℤ) : ℚ) < 2000 := by exact_mod_cast h1
  unfold rawValue
  rw [div_lt_one (by norm_num : (0 : ℚ) < 1000)]
  push_cast
  linarith

lemma sq_mem_le_sumSq {l : List ℚ} {x : ℚ} (hx : x ∈ l) : x * x ≤ sumSq l :=
  List.single_le_sum
    (fun y hy => by
      obtain ⟨z, _, rfl⟩ := List.mem_map.mp hy
      exact mul_self_nonneg z)
    _ (List.mem_map_of_mem _ hx)

/-- The degenerate all-zero raw vector is impossible: some raw component is
nonzero for every hash value, so the sum of squares is strictly positive. -/
lemma sumSq_rawEmbedding_pos (h : ℤ) : 0 < sumSq (rawEmbedding h) := by
  rcases eq_or_ne (h % 2000) 1000 with hc | hc
  · have h1 : rawValue h 1 = 37 / 1000 := by
      unfold rawValue
      have he : (h + (1 : ℕ) * 37) % 2000 = 1037 := by push_cast; omega
      rw [he]
      norm_num
    have hmem : rawValue h 1 ∈ rawEmbedding h :=
      List.mem_map_of_mem _ (List.mem_range.mpr (by norm_num))
    have hle := sq_mem_le_sumSq hmem
    rw [h1] at hle
    linarith
  · have hne : rawValue h 0 ≠ 0 := by
      unfold rawValue
      intro heq
      apply hc
      rcases div_eq_zero_iff.mp heq with hz | hz
      · have : (h + (0 : ℕ) * 37) % 2000 - 1000 = 0 := by exact_mod_cast hz
        push_cast at this
        omega
      · norm_num at hz
    have hmem : rawValue h 0 ∈ rawEmbedding h :=
      List.mem_map_of_mem _ (List.mem_range.mpr (by norm_num))
    have hle := sq_mem_le_sumSq hmem
    have hpos : 0 < rawValue h 0 * rawValue h 0 := mul_self_pos.mpr hne
    linarith

lemma sumSqR_map_div (l : List ℚ) (c : ℝ) :
    sumSqR (l.map (fun x => (Rat.cast x : ℝ) / c)) = ((sumSq l : ℚ) : ℝ) / (c * c) := by
  induction l with
  | nil => simp [sumSqR, sumSq]
  | cons x xs ih =>
    simp only [sumSqR, sumSq, List.map_cons, List.sum_cons] at ih ⊢
    rw [ih]
    push_cast
    rw [div_mul_div_comm, add_div]

lemma normalize_length (l : List ℚ) : (normalize l).length = l.length := by
  unfold normalize
  split <;> simp

lemma normalize_sumSqR {l : List ℚ} (hl : 0 < sumSq l) : sumSqR (normalize l) = 1 := by
  have hR : (0 : ℝ) < ((sumSq l : ℚ) : ℝ) := by exact_mod_cast hl
  have hs : 0 < Real.sqrt ((sumSq l : ℚ) : ℝ) := Real.sqrt_pos.mpr hR
  unfold normalize
  rw [if_pos hs, sumSqR_map_div, Real.mul_self_sqrt hR.le]
  exact div_self hR.ne'

/-! ### Claim theorems for the fallback embedding -/

/-- C1: for every input text (via any string hash function), the fallback
embedding has exactly 384 components and Euclidean norm exactly 1 (hence
within any tolerance of 1.0); the degenerate all-zero case never occurs,
as `sumSq_rawEmbedding_pos` shows, so the normalization is always taken. -/
theorem c1_embedding_length_unit_norm (hashFn : Str → ℤ) (t : Str) :
    (create_fallback_embedding hashFn t).length = 384 ∧
    Real.sqrt (sumSqR (create_fallback_embedding hashFn t)) = 1 := by
  constructor
  · rw [create_fallback_embedding, normalize_length, rawEmbedding_length]
  · rw [create_fallback_embedding, normalize_sumSqR (sumSq_rawEmbedding_pos _),
      Real.sqrt_one]

/-- C7: for every hash value and dimension index below 384, the modulo
yields a non-negative remainder (also for negative seeds) and the raw
component lies in the half-open range [-1, 1). -/
theorem c7_raw_value_range (h : ℤ) (i : ℕ) (_hi : i < 384) :
    0 ≤ (h + (i : ℤ) * 37) % 2000 ∧ -1 ≤ rawValue h i ∧ rawValue h i < 1 :=
  ⟨Int.emod_nonneg _ (by norm_num), rawValue_lower h i, rawValue_upper h i⟩

/-- Witness for C7 at the concrete negative hash value -123 and index 7. -/
theorem c7_raw_value_range_witness :
    (7 : ℕ) < 384 ∧
    (0 ≤ ((-123 : ℤ) + (7 : ℤ) * 37) % 2000 ∧
      -1 ≤ rawValue (-123) 7 ∧ rawValue (-123) 7 < 1) :=
  ⟨by norm_num, c7_raw_value_range (-123) 7 (by norm_num)⟩

/-! ### Basic lemmas about the fallback reranker -/

lemma length_initialScores (q : Str) (docs : List Str) :
    (initialScores q docs).length = docs.length := by
  simp [initialScores, List.enum_eq_enumFrom]

lemma length_sortScores (l : List (ℕ × ℚ)) : (sortScores l).length = l.length :=
  List.length_mergeSort l

lemma length_rerank_none (q : Str) (docs : List Str) :
    (create_fallback_reranking q docs none).length = docs.length := by
  show (sortScores (initialScores q docs)).length = _
  rw [length_sortScores, length_initialScores]

lemma docScore_nonneg (q d : Str) : 0 ≤ docScore q d := by
  simp only [docScore]
  have hbase : (0 : ℚ) ≤
      if 0 < ((wordSet q) ∪ (wordSet d)).card then
        (((wordSet q) ∩ (wordSet d)).card : ℚ) / (((wordSet q) ∪ (wordSet d)).card : ℚ)
      else 0 := by
    split
    · positivity
    · exact le_refl 0
  split <;> linarith

lemma docScore_le (q d : Str) : docScore q d ≤ 11 / 10 := by
  simp only [docScore]
  have hbase :
      (if 0 < ((wordSet q) ∪ (wordSet d)).card then
        (((wordSet q) ∩ (wordSet d)).card : ℚ) / (((wordSet q) ∪ (wordSet d)).card : ℚ)
      else 0) ≤ 1 := by
    split
    · rename_i hu
      rw [div_le_one (by exact_mod_cast hu)]
      exact_mod_cast Finset.card_le_card Finset.inter_subset_union
    · norm_num
  split <;> linarith

/-- Every pair in the reranker output is one of the initially collected
`(index, score)` pairs. -/
lemma mem_initialScores_of_mem_rerank {q : Str} {docs : List Str} {k : Option ℤ}
    {p : ℕ × ℚ} (hp : p ∈ create_fallback_reranking q docs k) :
    p ∈ initialScores q docs := by
  have h1 : p ∈ sortScores (initialScores q docs) := by
    cases k with
    | none => exact hp
    | some k' =>
      have hp' : p ∈ pySliceTo (sortScores (initialScores q docs)) k' := hp
      rw [pySliceTo] at hp'
      split at hp' <;> exact List.mem_of_mem_take hp'
  exact List.mem_mergeSort.mp h1

/-! ### Claim theorems for totality, lengths and score bounds -/

/-- C2: both fallback functions are total on the embedded model: the
embedding always returns a 384-component vector and its normalization
divides by a norm whose square is strictly positive; reranking an empty
document list returns the empty list (for every `top_k`, present or not),
and reranking with no `top_k` returns one scored pair per document. -/
theorem c2_totality :
    (∀ (hashFn : Str → ℤ) (t : Str),
      (create_fallback_embedding hashFn t).length = 384) ∧
    (∀ h : ℤ, 0 < sumSq (rawEmbedding h)) ∧
    (∀ (q : Str) (k : Option ℤ), create_fallback_reranking q [] k = []) ∧
    (∀ (q : Str) (docs : List Str),
      (create_fallback_reranking q docs none).length = docs.length) := by
  refine ⟨?_, sumSq_rawEmbedding_pos, ?_, fun q docs => length_rerank_none q docs⟩
  · intro hashFn t
    rw [create_fallback_embedding, normalize_length, rawEmbedding_length]
  · intro q k
    cases k <;>
      simp [create_fallback_reranking, initialScores, sortScores, applyTopK,
        pySliceTo, List.enum_eq_enumFrom]

/-- C5: a non-negative `top_k` truncates the sorted sequence to its first
`top_k` entries; `top_k = 0` yields the empty list; a `top_k` of at least
the document count returns the full sorted sequence; omitting `top_k`
returns the full sorted sequence (definitionally, the untruncated sort). -/
theorem c5_topk_truncation (q : Str) (docs : List Str) (k : ℕ) :
    create_fallback_reranking q docs (some (k : ℤ)) =
      (create_fallback_reranking q docs none).take k ∧
    create_fallback_reranking q docs (some 0) = [] ∧
    (docs.length ≤ k →
      create_fallback_reranking q docs (some (k : ℤ)) =
        create_fallback_reranking q docs none) := by
  have h1 : ∀ m : ℕ, create_fallback_reranking q docs (some (m : ℤ)) =
      (sortScores (initialScores q docs)).take m := by
    intro m
    show pySliceTo (sortScores (initialScores q docs)) (m : ℤ) =
      (sortScores (initialScores q docs)).take m
    rw [pySliceTo, if_pos (by positivity), Int.toNat_natCast]
  refine ⟨h1 k, by simpa using h1 0, fun hk => ?_⟩
  rw [h1 k]
  exact List.take_of_length_le (by rw [length_sortScores, length_initialScores]; exact hk)

/-- Witness for C5's conditional clause: with two documents and
`top_k = 3 ≥ 2`, the result equals the untruncated one. -/
theorem c5_topk_truncation_witness :
    ([[ 'x'], [ 'y']] : List Str).length ≤ 3 ∧
    create_fallback_reranking [ 'a'] [[ 'x'], [ 'y']] (some ((3 : ℕ) : ℤ)) =
      create_fallback_reranking [ 'a'] [[ 'x'], [ 'y']] none :=
  ⟨by norm_num, (c5_topk_truncation [ 'a'] [[ 'x'], [ 'y']] 3).2.2 (by norm_num)⟩

/-- C6: with `top_k` omitted the output has one entry per document and its
original indices are a permutation of `0, …, len(docs) - 1`. -/
theorem c6_output_is_permutation (q : Str) (docs : List Str) :
    (create_fallback_reranking q docs none).length = docs.length ∧
    ((create_fallback_reranking q docs none).map Prod.fst).Perm
      (List.range docs.length) := by
  refine ⟨length_rerank_none q docs, ?_⟩
  have hp : (sortScores (initialScores q docs)).Perm (initialScores q docs) :=
    List.mergeSort_perm _ _
  have hfst : (initialScores q docs).map Prod.fst = List.range docs.length := by
    unfold initialScores
    rw [List.map_map]
    have hcomp : (Prod.fst ∘ fun p : ℕ × Str => (p.1, docScore q p.2)) = Prod.fst :=
      rfl
    rw [hcomp, List.enum_eq_enumFrom, List.enumFrom_map_fst, ← List.range_eq_range']
  rw [← hfst]
  exact hp.map Prod.fst

/-- C8: every relevance score the fallback reranker outputs lies in
`[0, 11/10]`: the Jaccard part is in `[0, 1]` and the only addition is the
fixed `1/10` substring bonus. -/
theorem c8_score_range (q : Str) (docs : List Str) (k : Option ℤ) (p : ℕ × ℚ)
    (hp : p ∈ create_fallback_reranking q docs k) :
    0 ≤ p.2 ∧ p.2 ≤ 11 / 10 := by
  obtain ⟨pr, _, rfl⟩ := List.mem_map.mp (mem_initialScores_of_mem_rerank hp)
  exact ⟨docScore_nonneg q pr.2, docScore_le q pr.2⟩

/-- Witness for C8: the pair `(0, 11/10)` is the reranker output for query
"a" over the single document "a", and its score is within the range. -/
theorem c8_score_range_witness :
    (((0 : ℕ), (11 / 10 : ℚ)) ∈
      create_fallback_reranking [ 'a'] [[ 'a']] none) ∧
    (0 ≤ (((0 : ℕ), (11 / 10 : ℚ)) : ℕ × ℚ).2 ∧
      (((0 : ℕ), (11 / 10 : ℚ)) : ℕ × ℚ).2 ≤ 11 / 10) := by
  have hmem : ((0 : ℕ), (11 / 10 : ℚ)) ∈
      create_fallback_reranking [ 'a'] [[ 'a']] none := by
    show _ ∈ sortScores (initialScores [ 'a'] [[ 'a']])
    exact List.mem_mergeSort.mpr (by with_unfolding_all decide)
  exact ⟨hmem, c8_score_range [ 'a'] [[ 'a']] none _ hmem⟩

/-- C9: a negative `top_k = -k` with `0 < k ≤ len(docs)` follows Python's
negative-slice semantics: the sorted sequence with its last `k` entries
removed. -/
theorem c9_negative_topk (q : Str) (docs : List Str) (k : ℕ) (h1 : 0 < k)
    (h2 : k ≤ docs.length) :
    create_fallback_reranking q docs (some (-(k : ℤ))) =
      (create_fallback_reranking q docs none).take (docs.length - k) := by
  have hlen : (sortScores (initialScores q docs)).length = docs.length := by
    rw [length_sortScores, length_initialScores]
  show pySliceTo (sortScores (initialScores q docs)) (-(k : ℤ)) = _
  rw [pySliceTo, if_neg (by omega), hlen]
  congr 1
  omega

/-- Witness for C9 with two documents and `top_k = -1`. -/
theorem c9_negative_topk_witness :
    0 < 1 ∧ 1 ≤ ([[ 'x'], [ 'y']] : List Str).length ∧
    create_fallback_reranking [ 'a'] [[ 'x'], [ 'y']] (some (-((1 : ℕ) : ℤ))) =
      (create_fallback_reranking [ 'a'] [[ 'x'], [ 'y']] none).take
        (([[ 'x'], [ 'y']] : List Str).length - 1) :=
  ⟨by norm_num, by norm_num,
    c9_negative_topk [ 'a'] [[ 'x'], [ 'y']] 1 (by norm_num) (by norm_num)⟩

/-! ### The per-document score formula (C3) -/

/-- The score of the loop body rewritten in the spec's phrasing: Jaccard
similarity is 0 exactly when the union of word sets is empty, and the 1/10
bonus is added exactly when the lowercased query is a contiguous substring
of the lowercased document. -/
lemma docScore_eq_formula (q d : Str) :
    docScore q d =
      (if ((wordSet q) ∪ (wordSet d)).card = 0 then 0
       else (((wordSet q) ∩ (wordSet d)).card : ℚ) /
         (((wordSet q) ∪ (wordSet d)).card : ℚ)) +
      (if lower q <:+: lower d then 1 / 10 else 0) := by
  simp only [docScore]
  have hS : (if 0 < ((wordSet q) ∪ (wordSet d)).card then
        (((wordSet q) ∩ (wordSet d)).card : ℚ) /
          (((wordSet q) ∪ (wordSet d)).card : ℚ)
      else 0) =
      (if ((wordSet q) ∪ (wordSet d)).card = 0 then 0
       else (((wordSet q) ∩ (wordSet d)).card : ℚ) /
         (((wordSet q) ∪ (wordSet d)).card : ℚ)) := by
    rcases Nat.eq_zero_or_pos ((wordSet q) ∪ (wordSet d)).card with h | h
    · rw [if_neg (by omega), if_pos h]
    · rw [if_pos h, if_neg (by omega)]
  rw [hS]
  split <;> simp

lemma getD_mem_enum (docs : List Str) (i : ℕ) (hi : i < docs.length) :
    (i, docs.getD i []) ∈ docs.enum := by
  rw [List.enum_eq_enumFrom, List.mem_iff_getElem]
  refine ⟨i, by simpa using hi, ?_⟩
  rw [List.getElem_enumFrom]
  simp [List.getElem?_eq_getElem hi]

lemma initialScores_mem (q : Str) (docs : List Str) (i : ℕ)
    (hi : i < docs.length) :
    (i, docScore q (docs.getD i [])) ∈ initialScores q docs :=
  List.mem_map.mpr ⟨(i, docs.getD i []), getD_mem_enum docs i hi, rfl⟩

/-- C3: for every query and every document of the list, the reranker output
contains the pair of the document's original index with exactly the claimed
score: Jaccard similarity of the lowercase word sets (0 when the union is
empty) plus the 1/10 bonus exactly when the lowercased query occurs as a
contiguous substring of the lowercased document. -/
theorem c3_score_is_jaccard_plus_bonus (q : Str) (docs : List Str) (i : ℕ)
    (hi : i < docs.length) :
    (i, (if ((wordSet q) ∪ (wordSet (docs.getD i []))).card = 0 then 0
         else (((wordSet q) ∩ (wordSet (docs.getD i []))).card : ℚ) /
           (((wordSet q) ∪ (wordSet (docs.getD i []))).card : ℚ)) +
        (if lower q <:+: lower (docs.getD i []) then 1 / 10 else 0))
      ∈ create_fallback_reranking q docs none := by
  rw [← docScore_eq_formula]
  show _ ∈ sortScores (initialScores q docs)
  exact List.mem_mergeSort.mpr (initialScores_mem q docs i hi)

/-- Witness for C3 at query "a b", document list ["b c"], index 0. -/
theorem c3_score_is_jaccard_plus_bonus_witness :
    0 < ([[ 'b', ' ', 'c']] : List Str).length ∧
    ((0 : ℕ),
      (if ((wordSet [ 'a', ' ', 'b']) ∪
            (wordSet (([[ 'b', ' ', 'c']] : List Str).getD 0 []))).card = 0 then 0
       else (((wordSet [ 'a', ' ', 'b']) ∩
            (wordSet (([[ 'b', ' ', 'c']] : List Str).getD 0 []))).card : ℚ) /
           (((wordSet [ 'a', ' ', 'b']) ∪
            (wordSet (([[ 'b', ' ', 'c']] : List Str).getD 0 []))).card : ℚ)) +
        (if lower [ 'a', ' ', 'b'] <:+:
            lower (([[ 'b', ' ', 'c']] : List Str).getD 0 []) then 1 / 10 else 0))
      ∈ create_fallback_reranking [ 'a', ' ', 'b'] [[ 'b', ' ', 'c']] none :=
  ⟨by norm_num,
    c3_score_is_jaccard_plus_bonus [ 'a', ' ', 'b'] [[ 'b', ' ', 'c']] 0 (by norm_num)⟩

/-! ### The empty-query behaviour (C10) -/

lemma wordSet_nil : wordSet [] = ∅ := rfl

lemma docScore_nil_query (d : Str) : docScore [] d = 1 / 10 := by
  simp only [docScore]
  have hsub : lower [] <:+: lower d := ⟨[], lower d, by simp [lower]⟩
  rw [if_pos hsub, wordSet_nil]
  have hbase : (if 0 < ((∅ : Finset Str) ∪ (wordSet d)).card then
      (((∅ : Finset Str) ∩ (wordSet d)).card : ℚ) /
        (((∅ : Finset Str) ∪ (wordSet d)).card : ℚ)
    else 0) = 0 := by
    split <;> simp
  rw [hbase, zero_add]

/-- C10: with the empty-string query every document scores exactly 1/10
(Jaccard part 0, substring bonus always granted), so by stability the
output is the identity ranking: indices 0, …, n-1 in order, each with
score 1/10. -/
theorem c10_empty_query_identity_ranking (docs : List Str) :
    create_fallback_reranking [] docs none =
      (List.range docs.length).map (fun i => (i, (1 / 10 : ℚ))) := by
  have hscores : initialScores [] docs =
      (List.range docs.length).map (fun i => (i, (1 / 10 : ℚ))) := by
    unfold initialScores
    have h1 : (fun p : ℕ × Str => (p.1, docScore [] p.2)) =
        ((fun i => (i, (1 / 10 : ℚ))) ∘ Prod.fst) := by
      funext p
      simp [docScore_nil_query]
    rw [h1, ← List.map_map, List.enum_eq_enumFrom, List.enumFrom_map_fst,
      ← List.range_eq_range']
  show sortScores (initialScores [] docs) = _
  rw [hscores]
  apply List.mergeSort_of_sorted
  rw [List.pairwise_map]
  apply List.pairwise_of_forall
  intro a b
  simp [scoreLE]

/-! ### Sortedness and stability of the reranker output (C4) -/

lemma scoreLE_trans : ∀ a b c : ℕ × ℚ, scoreLE a b → scoreLE b c → scoreLE a c := by
  intro a b c hab hbc
  simp only [scoreLE, decide_eq_true_eq] at hab hbc ⊢
  exact le_trans hbc hab

lemma scoreLE_total : ∀ a b : ℕ × ℚ, scoreLE a b || scoreLE b a := by
  intro a b
  simp only [scoreLE, Bool.or_eq_true, decide_eq_true_eq]
  exact le_total b.2 a.2

lemma initialScores_getElem_fst (q : Str) (docs : List Str) (j : ℕ)
    (hj : j < (initialScores q docs).length) :
    (initialScores q docs)[j].1 = j := by
  simp [initialScores, List.enum_eq_enumFrom]

/-- Every pair of the sorted output is, in order, either strictly decreasing
in score or tied with strictly increasing original index: Python's stable
descending sort on an index-increasing input. -/
lemma rerank_none_pairwise (q : Str) (docs : List Str) :
    (create_fallback_reranking q docs none).Pairwise
      (fun a b => b.2 < a.2 ∨ (a.2 = b.2 ∧ a.1 < b.1)) := by
  have hmap : (List.mergeSort (initialScores q docs).enum
        (List.enumLE scoreLE)).map (fun p => p.2) =
      List.mergeSort (initialScores q docs) scoreLE :=
    List.mergeSort_enum
  have hsorted := List.sorted_mergeSort
    (List.enumLE_trans scoreLE_trans) (List.enumLE_total scoreLE_total)
    (initialScores q docs).enum
  have hperm : (List.mergeSort (initialScores q docs).enum
      (List.enumLE scoreLE)).Perm (initialScores q docs).enum :=
    List.mergeSort_perm _ _
  have hfst_nodup : ((List.mergeSort (initialScores q docs).enum
      (List.enumLE scoreLE)).map Prod.fst).Nodup := by
    rw [(hperm.map Prod.fst).nodup_iff, List.enum_eq_enumFrom,
      List.enumFrom_map_fst]
    exact List.nodup_range' 0 _
  have hfst_ne : (List.mergeSort (initialScores q docs).enum
      (List.enumLE scoreLE)).Pairwise (fun a b => a.1 ≠ b.1) :=
    List.pairwise_map.mp hfst_nodup
  have hshape : ∀ p ∈ List.mergeSort (initialScores q docs).enum
      (List.enumLE scoreLE), p.2.1 = p.1 := by
    intro p hp
    obtain ⟨j, hj, hget⟩ := List.mem_iff_getElem.mp (List.mem_mergeSort.mp hp)
    have hjlen : j < (initialScores q docs).length := by simpa using hj
    have h1 : (initialScores q docs).enum[j] =
        (j, (initialScores q docs)[j]) := by
      simp [List.enum_eq_enumFrom]
    rw [← hget, h1]
    exact initialScores_getElem_fst q docs j hjlen
  have hfinal : (List.mergeSort (initialScores q docs).enum
      (List.enumLE scoreLE)).Pairwise (fun a b =>
        b.2.2 < a.2.2 ∨ (a.2.2 = b.2.2 ∧ a.2.1 < b.2.1)) := by
    refine (hsorted.and hfst_ne).imp_of_mem ?_
    intro a b ha hb hab
    obtain ⟨h1, h2⟩ := hab
    have hsa := hshape a ha
    have hsb := hshape b hb
    simp only [List.enumLE, scoreLE] at h1
    by_cases hba : b.2.2 ≤ a.2.2
    · by_cases hab' : a.2.2 ≤ b.2.2
      · right
        refine ⟨le_antisymm hab' hba, ?_⟩
        rw [hsa, hsb]
        simp only [decide_eq_true_eq, if_pos hba, if_pos hab'] at h1
        omega
      · left
        exact lt_of_le_of_ne hba (fun he => hab' (le_of_eq he.symm))
    · exfalso
      simp [hba] at h1
  show (sortScores (initialScores q docs)).Pairwise _
  rw [sortScores, ← hmap]
  exact List.pairwise_map.mpr hfinal

/-- C4: the reranker output is sorted by score in descending order with
ties in ascending original-index order; in particular, for the query "a"
and the duplicate documents ["x", "x"] the output indices are [0, 1]. -/
theorem c4_sorted_and_stable (q : Str) (docs : List Str) :
    (create_fallback_reranking q docs none).Pairwise
      (fun a b => b.2 < a.2 ∨ (a.2 = b.2 ∧ a.1 < b.1)) ∧
    (create_fallback_reranking [ 'a'] [[ 'x'], [ 'x']] none).map Prod.fst =
      [0, 1] := by
  refine ⟨rerank_none_pairwise q docs, ?_⟩
  have hs : (initialScores [ 'a'] [[ 'x'], [ 'x']]).Pairwise
      (fun a b => scoreLE a b = true) := by
    with_unfolding_all decide
  show ((sortScores (initialScores [ 'a'] [[ 'x'], [ 'x']])).map Prod.fst) = _
  rw [sortScores, List.mergeSort_of_sorted hs]
  with_unfolding_all decide

end EmbeddingFunctions
